/-
  Verification of the Optimix scheduling core.

  Shallow embedding of two components of the source repository:
  * the candidate-ranking algorithm `findOptimalDates` /
    `findOptimalDatesFromData` (src/unnamed/part_000, "Scheduler Service");
  * the participant ledger `joinEvent` / `cancelEvent`
    (src/src/services/participant.ts).

  Conventions of the embedding:
  * ISO date strings "YYYY-MM-DD" are modelled as a structure `CalDate`
    holding the numeric year, month and day; `new Date(date+'T00:00:00').getDay()`
    is modelled by `CalDate.getDay` (Sakamoto's day-of-week computation on the
    proleptic Gregorian calendar, 0 = Sunday .. 6 = Saturday), covering the
    well-formed date strings the source feeds to `Date`.
  * `Map<string, string[]>` built by repeated `get`/`push`/`set` is modelled
    as an association list upserted in the same order; JavaScript `Map`
    iteration order is insertion order of keys, which the association list
    preserves.
  * `Array.prototype.sort` with comparator `(a, b) => b.count - a.count` is a
    stable sort (ECMAScript 2019); it is modelled by a stable insertion sort
    on the same key, which produces the identical ordering.
  * Database tables are lists of records; Prisma calls (`findUnique`,
    `findFirst` with `orderBy`, `create`, `delete`, `update`) become the
    corresponding list operations, and the autoincremented id / `now()`
    timestamp of a created row are threaded explicitly.
-/
import Mathlib

namespace Optimix

/-! ## Calendar dates and day of week -/

/-- A calendar date `YYYY-MM-DD`, the numeric content of the ISO date strings
the source passes around. -/
structure CalDate where
  year : Nat
  month : Nat
  day : Nat
deriving DecidableEq, Repr

/-- Calendar order on dates (the order of the ISO strings). -/
def CalDate.le (a b : CalDate) : Bool :=
  if a.year ≠ b.year then a.year < b.year
  else if a.month ≠ b.month then a.month < b.month
  else a.day ≤ b.day

/-- Sakamoto's method offset table. -/
def sakamotoTable : List Int := [0, 3, 2, 5, 0, 3, 5, 1, 4, 6, 2, 4]

/-- Day of week of a date, 0 = Sunday .. 6 = Saturday: the value of
`new Date(date + 'T00:00:00').getDay()` in the source for a well-formed
local-naive date. -/
def CalDate.getDay (dt : CalDate) : Nat :=
  let y : Int := if dt.month < 3 then (dt.year : Int) - 1 else (dt.year : Int)
  let t : Int := (sakamotoTable.getD (dt.month - 1) 0)
  ((y + y / 4 - y / 100 + y / 400 + t + dt.day) % 7).toNat

/-! ## Scheduler data model (src/unnamed/part_000) -/

/-- One availability row as selected by the scheduler:
`{ date: string; userId: string }`. -/
structure Availability where
  date : CalDate
  userId : String
deriving DecidableEq, Repr

/-- `ScheduleCandidate` from the source: date, count, member ids, reason tags. -/
structure ScheduleCandidate where
  date : CalDate
  count : Nat
  members : List String
  tags : List String
deriving DecidableEq, Repr

/-- Tag string `'🏆 全員参加可能'` (full attendance). -/
def tagFullAttendance : String := "🏆 全員参加可能"

/-- Tag string `'👥 参加者多数'` (high turnout). -/
def tagHighTurnout : String := "👥 参加者多数"

/-- Tag string `'✅ 必須メンバー全員空き'` (all required present). -/
def tagAllRequired : String := "✅ 必須メンバー全員空き"

/-- Tag string `'📅 平日'` (weekday). -/
def tagWeekday : String := "📅 平日"

/-- Tag string `'🏖️ 週末'` (weekend). -/
def tagWeekend : String := "🏖️ 週末"

/-- Upsert step of the date map: `members = dateMap.get(av.date) ?? [];
members.push(av.userId); dateMap.set(av.date, members)`. A new key is
appended (JS `Map` keeps insertion order); an existing key keeps its
position and its list grows at the end. -/
def dateMapInsert (m : List (CalDate × List String)) (av : Availability) :
    List (CalDate × List String) :=
  match m with
  | [] => [(av.date, [av.userId])]
  | (d, ms) :: rest =>
      if d = av.date then (d, ms ++ [av.userId]) :: rest
      else (d, ms) :: dateMapInsert rest av

/-- The date map after the grouping loop over `availabilities`. -/
def buildDateMap (availabilities : List Availability) :
    List (CalDate × List String) :=
  availabilities.foldl dateMapInsert []

/-- `dateMap.get(d)`: the members list stored under a date key. -/
def lookupDate (m : List (CalDate × List String)) (d : CalDate) :
    Option (List String) :=
  (m.find? fun e => e.1 = d).map Prod.snd

/-- The filter-and-tag body of the candidate loop: given one `(date, members)`
entry of the date map, either drop it (`continue`) or build its
`ScheduleCandidate`. -/
def candidateOfEntry (requiredUserIds : List String) (minParticipants : Int)
    (dayOfWeekFilter : Option (List Int)) (registeredCount : Nat)
    (entry : CalDate × List String) : Option ScheduleCandidate :=
  let date := entry.1
  let members := entry.2
  let dow : Int := date.getDay
  if (match dayOfWeekFilter with
      | some f => f.length > 0 && !(f.contains dow)
      | none => false) then none
  else if requiredUserIds.length > 0 &&
      !(requiredUserIds.all fun uid => members.contains uid) then none
  else if (members.length : Int) < minParticipants then none
  else
    let tags : List String :=
      (if registeredCount > 0 && members.length ≥ registeredCount
        then [tagFullAttendance] else []) ++
      (if (members.length : Int) ≥ minParticipants * 2
        then [tagHighTurnout] else []) ++
      (if requiredUserIds.length > 0 &&
          (requiredUserIds.all fun uid => members.contains uid)
        then [tagAllRequired] else []) ++
      (if 1 ≤ dow && dow ≤ 5 then [tagWeekday] else []) ++
      (if dow = 0 || dow = 6 then [tagWeekend] else [])
    some { date := date, count := members.length, members := members, tags := tags }

/-- Insert into a count-descending list, keeping insertion order among equal
counts: one step of the stable sort `candidates.sort((a, b) => b.count - a.count)`. -/
def insertByCountDesc (c : ScheduleCandidate) :
    List ScheduleCandidate → List ScheduleCandidate
  | [] => [c]
  | x :: xs =>
      if x.count > c.count then x :: insertByCountDesc c xs
      else c :: x :: xs

/-- Stable sort by `count` descending, the behaviour of ECMAScript
`Array.prototype.sort` with comparator `(a, b) => b.count - a.count`. -/
def sortByCountDesc : List ScheduleCandidate → List ScheduleCandidate
  | [] => []
  | x :: xs => insertByCountDesc x (sortByCountDesc xs)

/-- The surviving candidates in date-map (insertion) order, before sorting. -/
def candidatesInOrder (availabilities : List Availability)
    (requiredUserIds : List String) (minParticipants : Int)
    (dayOfWeekFilter : Option (List Int)) (registeredCount : Nat) :
    List ScheduleCandidate :=
  (buildDateMap availabilities).filterMap
    (candidateOfEntry requiredUserIds minParticipants dayOfWeekFilter registeredCount)

/-- `registeredCount` when not supplied by the caller: the number of distinct
user ids in the availabilities (`new Set(availabilities.map(a => a.userId)).size`). -/
def registeredCountOf (availabilities : List Availability) : Nat :=
  ((availabilities.map Availability.userId).dedup).length

/-- `findOptimalDatesFromData(availabilities, options)` from the source: group
by date, filter by day of week, required members and minimum participants, tag,
sort by count descending (stable) and take the first `limit` (default 3). -/
def findOptimalDatesFromData (availabilities : List Availability)
    (requiredUserIds : List String) (minParticipants : Int)
    (dayOfWeekFilter : Option (List Int)) (limit : Nat) :
    List ScheduleCandidate :=
  let registeredCount := registeredCountOf availabilities
  (sortByCountDesc
    (candidatesInOrder availabilities requiredUserIds minParticipants
      dayOfWeekFilter registeredCount)).take limit

/-- `findOptimalDates` after its database read, i.e. applied to the list of
`AVAILABLE` rows in range: identical pipeline, with
`registeredCount = totalRegisteredUsers ?? uniqueUsers.size` and default
`limit = 5`. -/
def findOptimalDatesOnRows (availabilities : List Availability)
    (requiredUserIds : List String) (minParticipants : Int)
    (dayOfWeekFilter : Option (List Int)) (limit : Nat)
    (totalRegisteredUsers : Option Nat) :
    List ScheduleCandidate :=
  let registeredCount := totalRegisteredUsers.getD (registeredCountOf availabilities)
  (sortByCountDesc
    (candidatesInOrder availabilities requiredUserIds minParticipants
      dayOfWeekFilter registeredCount)).take limit

/-! ## Participant ledger data model (src/src/services/participant.ts) -/

/-- Persisted participation status of an `EventParticipant` row. -/
inductive PStatus where
  | CONFIRMED
  | WAITLISTED
  | CANCELLED
deriving DecidableEq, Repr

/-- An `eventParticipant` row: id (primary key), event, user, status and
`joinedAt` timestamp. -/
structure EventParticipant where
  id : Nat
  eventId : String
  userId : String
  status : PStatus
  joinedAt : Nat
deriving DecidableEq, Repr

/-- The fields of an `event` row the ledger reads: id, title and nullable
`maxParticipants`. -/
structure Event where
  id : String
  title : String
  maxParticipants : Option Int
deriving DecidableEq, Repr

/-- The database state the ledger operates on, plus the autoincrement counter
and clock that Prisma supplies on `create` (`id`, `joinedAt @default(now())`). -/
structure DB where
  events : List Event
  participants : List EventParticipant
  nextId : Nat
  now : Nat
deriving Repr

/-- Status component of the `ParticipantResult` returned to the caller. -/
inductive RStatus where
  | CONFIRMED
  | WAITLISTED
  | CANCELLED
  | PROMOTED
  | ALREADY_JOINED
  | NOT_FOUND
deriving DecidableEq, Repr

/-- `ParticipantResult` without its presentation-only `message` string. -/
structure ParticipantResult where
  success : Bool
  status : RStatus
  promotedUserId : Option String
deriving DecidableEq, Repr

/-- `prisma.eventParticipant.findUnique({ where: { eventId_userId } })`:
the row with the given compound key, if any. -/
def findRecord (db : DB) (eventId userId : String) : Option EventParticipant :=
  db.participants.find? fun p => p.eventId = eventId ∧ p.userId = userId

/-- `prisma.event.findUnique({ where: { id } })`. -/
def findEvent (db : DB) (eventId : String) : Option Event :=
  db.events.find? fun e => e.id = eventId

/-- The CONFIRMED rows of one event
(`include: { participants: { where: { status: 'CONFIRMED' } } }`). -/
def confirmedOf (db : DB) (eventId : String) : List EventParticipant :=
  db.participants.filter fun p => p.eventId = eventId ∧ p.status = PStatus.CONFIRMED

/-- The WAITLISTED rows of one event. -/
def waitlistedOf (db : DB) (eventId : String) : List EventParticipant :=
  db.participants.filter fun p => p.eventId = eventId ∧ p.status = PStatus.WAITLISTED

/-- `prisma.eventParticipant.delete({ where: { id } })`. -/
def deleteRecord (db : DB) (id : Nat) : DB :=
  { db with participants := db.participants.filter fun p => p.id ≠ id }

/-- `prisma.eventParticipant.create({ data: { eventId, userId, status } })`:
appends a fresh row with the autoincremented id and `joinedAt = now()`. -/
def createRecord (db : DB) (eventId userId : String) (status : PStatus) : DB :=
  { db with
    participants := db.participants ++
      [{ id := db.nextId, eventId := eventId, userId := userId,
         status := status, joinedAt := db.now }]
    nextId := db.nextId + 1 }

/-- `prisma.eventParticipant.update({ where: { id }, data: { status } })`. -/
def updateStatus (db : DB) (id : Nat) (status : PStatus) : DB :=
  { db with
    participants := db.participants.map fun p =>
      if p.id = id then { p with status := status } else p }

/-- `findFirst({ where: …WAITLISTED…, orderBy: { joinedAt: 'asc' } })`:
the first row in table order among those with minimal `joinedAt`. -/
def firstWaitlisted (db : DB) (eventId : String) : Option EventParticipant :=
  (waitlistedOf db eventId).foldl
    (fun acc p =>
      match acc with
      | none => some p
      | some q => if p.joinedAt < q.joinedAt then some p else some q)
    none

/-- `const isFull = event.maxParticipants != null && confirmedCount >= event.maxParticipants`. -/
def eventIsFull (event : Event) (confirmedCount : Nat) : Bool :=
  match event.maxParticipants with
  | some m => (confirmedCount : Int) ≥ m
  | none => false

/-! ## joinEvent and cancelEvent -/

/-- `joinEvent(eventId, userId)` from the source, as a state transformer:
reject (or, for a stale CANCELLED row, delete) an existing registration,
load the event with its CONFIRMED participants, then insert WAITLISTED when
full and CONFIRMED otherwise. -/
def joinEvent (db : DB) (eventId userId : String) : ParticipantResult × DB :=
  match findRecord db eventId userId with
  | some existing =>
      if existing.status = PStatus.CONFIRMED then
        ({ success := false, status := RStatus.ALREADY_JOINED, promotedUserId := none }, db)
      else if existing.status = PStatus.WAITLISTED then
        ({ success := false, status := RStatus.WAITLISTED, promotedUserId := none }, db)
      else
        joinFresh (deleteRecord db existing.id) eventId userId
  | none => joinFresh db eventId userId
where
  /-- The part of `joinEvent` after the existing-registration check. -/
  joinFresh (db : DB) (eventId userId : String) : ParticipantResult × DB :=
    match findEvent db eventId with
    | none => ({ success := false, status := RStatus.NOT_FOUND, promotedUserId := none }, db)
    | some event =>
        let confirmedCount := (confirmedOf db eventId).length
        if eventIsFull event confirmedCount then
          ({ success := true, status := RStatus.WAITLISTED, promotedUserId := none },
            createRecord db eventId userId PStatus.WAITLISTED)
        else
          ({ success := true, status := RStatus.CONFIRMED, promotedUserId := none },
            createRecord db eventId userId PStatus.CONFIRMED)

/-- `cancelEvent(eventId, userId)` from the source: delete the caller's row;
if it was CONFIRMED promote the earliest WAITLISTED row (if any) to CONFIRMED
and report `PROMOTED` with the promoted user's id. -/
def cancelEvent (db : DB) (eventId userId : String) : ParticipantResult × DB :=
  match findRecord db eventId userId with
  | none => ({ success := false, status := RStatus.NOT_FOUND, promotedUserId := none }, db)
  | some participant =>
      let wasConfirmed := participant.status = PStatus.CONFIRMED
      let db1 := deleteRecord db participant.id
      if wasConfirmed then
        match firstWaitlisted db1 eventId with
        | some nextW =>
            ({ success := true, status := RStatus.PROMOTED,
               promotedUserId := some nextW.userId },
              updateStatus db1 nextW.id PStatus.CONFIRMED)
        | none =>
            ({ success := true, status := RStatus.CANCELLED, promotedUserId := none }, db1)
      else
        ({ success := true, status := RStatus.CANCELLED, promotedUserId := none }, db1)

/-! ## Interleaved executions of joinEvent

`joinEvent` performs its database reads and writes through successive
`await`s with no enclosing transaction, so two in-flight calls may
interleave at every `await` boundary. The following small-step model cuts
`joinEvent` exactly at those boundaries; `joinStep_run_eq_joinEvent` below
checks that a thread run without interference computes precisely
`joinEvent`. -/

/-- Program counter of one in-flight `joinEvent` call, between `await`s. -/
inductive JoinPC where
  /-- Before `findUnique` on the caller's existing registration. -/
  | start
  /-- A stale CANCELLED row was found; before the `delete` await. -/
  | willDelete (staleId : Nat)
  /-- Before the `event.findUnique` (with CONFIRMED count) await. -/
  | readEvent
  /-- Capacity decision taken; before the `create` await. -/
  | willInsert (status : PStatus)
  /-- The call has returned. -/
  | done (r : ParticipantResult)
deriving DecidableEq, Repr

/-- One in-flight `joinEvent(eventId, userId)` call. -/
structure JoinThread where
  eventId : String
  userId : String
  pc : JoinPC
deriving Repr

/-- Replace the program counter of an in-flight call. -/
def JoinThread.withPC (t : JoinThread) (pc : JoinPC) : JoinThread :=
  { t with pc := pc }

/-- One `await` boundary of `joinEvent`: perform the next database
operation of the call and advance its program counter. -/
def joinStep (t : JoinThread) (db : DB) : JoinThread × DB :=
  match t.pc with
  | JoinPC.start =>
      match findRecord db t.eventId t.userId with
      | some existing =>
          if existing.status = PStatus.CONFIRMED then
            (t.withPC (JoinPC.done ⟨false, RStatus.ALREADY_JOINED, none⟩), db)
          else if existing.status = PStatus.WAITLISTED then
            (t.withPC (JoinPC.done ⟨false, RStatus.WAITLISTED, none⟩), db)
          else (t.withPC (JoinPC.willDelete existing.id), db)
      | none => (t.withPC JoinPC.readEvent, db)
  | JoinPC.willDelete staleId =>
      (t.withPC JoinPC.readEvent, deleteRecord db staleId)
  | JoinPC.readEvent =>
      match findEvent db t.eventId with
      | none => (t.withPC (JoinPC.done ⟨false, RStatus.NOT_FOUND, none⟩), db)
      | some event =>
          let confirmedCount := (confirmedOf db t.eventId).length
          if eventIsFull event confirmedCount then
            (t.withPC (JoinPC.willInsert PStatus.WAITLISTED), db)
          else
            (t.withPC (JoinPC.willInsert PStatus.CONFIRMED), db)
  | JoinPC.willInsert status =>
      (t.withPC (JoinPC.done
          ⟨true,
            match status with
            | PStatus.WAITLISTED => RStatus.WAITLISTED
            | _ => RStatus.CONFIRMED,
            none⟩),
        createRecord db t.eventId t.userId status)
  | JoinPC.done _ => (t, db)

/-- Run a schedule of thread indices over a pool of in-flight calls: at each
schedule entry the named thread performs its next `await` step. -/
def runJoins (threads : List JoinThread) (db : DB) :
    List Nat → List JoinThread × DB
  | [] => (threads, db)
  | i :: rest =>
      match threads.get? i with
      | none => runJoins threads db rest
      | some t =>
          let (t', db') := joinStep t db
          runJoins (threads.set i t') db' rest

/-- The ordering claimed by the specification for the scheduler's output:
count descending with ascending calendar date as the tie-break.
Modelled from the spec's words (§4.1 step 6) for comparison with the
source's sort; not a translation of source code. -/
def specCandidateOrder (a b : ScheduleCandidate) : Prop :=
  a.count > b.count ∨ (a.count = b.count ∧ CalDate.le a.date b.date = true)

instance : DecidableRel specCandidateOrder := by
  intro a b
  unfold specCandidateOrder
  infer_instance

/-- The attendance rows of one (event, user) pair, whose number the unique
compound key `eventId_userId` bounds by 1. -/
def pairRecords (db : DB) (eventId userId : String) : List EventParticipant :=
  db.participants.filter fun p => p.eventId = eventId ∧ p.userId = userId

/-! ## Ledger lemmas -/

theorem pairRecords_eq_nil_iff (db : DB) (e u : String) :
    pairRecords db e u = [] ↔ findRecord db e u = none := by
  simp [pairRecords, findRecord, List.filter_eq_nil_iff, List.find?_eq_none]

theorem findRecord_mem_pairRecords {db : DB} {e u : String} {p : EventParticipant}
    (h : findRecord db e u = some p) : p ∈ pairRecords db e u := by
  have hm := List.mem_of_find?_eq_some h
  have hp := List.find?_some h
  simp only [decide_eq_true_eq] at hp
  simp [pairRecords, List.mem_filter, hm, hp]

theorem pairRecords_singleton {db : DB} {e u : String} {p : EventParticipant}
    (hU : (pairRecords db e u).length ≤ 1) (hp : p ∈ pairRecords db e u) :
    pairRecords db e u = [p] := by
  match hl : pairRecords db e u with
  | [] => rw [hl] at hp; cases hp
  | [q] =>
      rw [hl] at hp
      simp only [List.mem_singleton] at hp
      rw [hp]
  | q :: r :: rest => rw [hl] at hU; simp at hU

theorem findEvent_deleteRecord (db : DB) (i : Nat) (e : String) :
    findEvent (deleteRecord db i) e = findEvent db e := rfl

theorem findEvent_createRecord (db : DB) (eid uid : String) (st : PStatus)
    (e : String) : findEvent (createRecord db eid uid st) e = findEvent db e := rfl

theorem pairRecords_createRecord (db : DB) (eid uid : String) (st : PStatus) :
    pairRecords (createRecord db eid uid st) eid uid =
      pairRecords db eid uid ++
        [{ id := db.nextId, eventId := eid, userId := uid,
           status := st, joinedAt := db.now }] := by
  simp [pairRecords, createRecord, List.filter_append]

theorem pairRecords_deleteRecord (db : DB) (i : Nat) (e u : String) :
    pairRecords (deleteRecord db i) e u =
      (pairRecords db e u).filter fun r => r.id ≠ i := by
  simp only [pairRecords, deleteRecord, List.filter_filter]
  congr 1
  funext r
  rw [Bool.and_comm]

theorem findRecord_createRecord_self (db : DB) (eid uid : String) (st : PStatus)
    (h : findRecord db eid uid = none) :
    findRecord (createRecord db eid uid st) eid uid =
      some { id := db.nextId, eventId := eid, userId := uid,
             status := st, joinedAt := db.now } := by
  simp only [findRecord, createRecord] at *
  rw [List.find?_append, h]
  simp [List.find?]

theorem confirmedOf_deleteRecord_sublist (db : DB) (i : Nat) (e : String) :
    (confirmedOf (deleteRecord db i) e).Sublist (confirmedOf db e) :=
  List.Sublist.filter _ (List.filter_sublist _)

/-! ## C9: typed not-found results -/

/-- C9: not-found conditions are typed result variants with no state change.
With referential integrity (no attendance row for a non-existent event),
`joinEvent` on a missing event returns the not-found variant
`{success: false, status: 'NOT_FOUND'}` (the spec's EVENT_NOT_FOUND) and
leaves the database unchanged, and `cancelEvent` for a pair with no
attendance record returns the same variant and changes nothing. -/
theorem notFound_no_mutation (db : DB) (eid uid e2 u2 : String)
    (hev : findEvent db eid = none) (hrec : findRecord db eid uid = none)
    (hrec2 : findRecord db e2 u2 = none) :
    joinEvent db eid uid = (⟨false, RStatus.NOT_FOUND, none⟩, db) ∧
    cancelEvent db e2 u2 = (⟨false, RStatus.NOT_FOUND, none⟩, db) := by
  constructor
  · unfold joinEvent
    rw [hrec]
    unfold joinEvent.joinFresh
    rw [hev]
  · unfold cancelEvent
    rw [hrec2]

/-- Witness for `notFound_no_mutation` at a concrete database. -/
theorem notFound_no_mutation_witness :
    joinEvent ⟨[], [], 0, 7⟩ "e1" "X" = (⟨false, RStatus.NOT_FOUND, none⟩, ⟨[], [], 0, 7⟩) ∧
    cancelEvent ⟨[], [], 0, 7⟩ "e2" "Y" = (⟨false, RStatus.NOT_FOUND, none⟩, ⟨[], [], 0, 7⟩) :=
  notFound_no_mutation ⟨[], [], 0, 7⟩ "e1" "X" "e2" "Y" rfl rfl rfl

/-! ## C2: sequential join semantics -/

/-- C2: for a sequential Join where the event exists and the member has no
record, exactly one record is appended: WAITLISTED when `maxParticipants`
is set and the CONFIRMED count has reached it, CONFIRMED otherwise — in
particular always CONFIRMED when `maxParticipants` is null — and the
returned status matches the inserted record. -/
theorem joinEvent_fresh_spec (db : DB) (eid uid : String) (ev : Event)
    (hrec : findRecord db eid uid = none)
    (hev : findEvent db eid = some ev) :
    (ev.maxParticipants = none →
      (joinEvent db eid uid).1 = ⟨true, RStatus.CONFIRMED, none⟩ ∧
      (joinEvent db eid uid).2.participants = db.participants ++
        [{ id := db.nextId, eventId := eid, userId := uid,
           status := PStatus.CONFIRMED, joinedAt := db.now }]) ∧
    (∀ m : Int, ev.maxParticipants = some m →
      (((confirmedOf db eid).length : Int) ≥ m →
        (joinEvent db eid uid).1 = ⟨true, RStatus.WAITLISTED, none⟩ ∧
        (joinEvent db eid uid).2.participants = db.participants ++
          [{ id := db.nextId, eventId := eid, userId := uid,
             status := PStatus.WAITLISTED, joinedAt := db.now }]) ∧
      (((confirmedOf db eid).length : Int) < m →
        (joinEvent db eid uid).1 = ⟨true, RStatus.CONFIRMED, none⟩ ∧
        (joinEvent db eid uid).2.participants = db.participants ++
          [{ id := db.nextId, eventId := eid, userId := uid,
             status := PStatus.CONFIRMED, joinedAt := db.now }])) := by
  have hred : joinEvent db eid uid =
      (if eventIsFull ev (confirmedOf db eid).length = true
        then (⟨true, RStatus.WAITLISTED, none⟩,
          createRecord db eid uid PStatus.WAITLISTED)
        else (⟨true, RStatus.CONFIRMED, none⟩,
          createRecord db eid uid PStatus.CONFIRMED)) := by
    unfold joinEvent
    rw [hrec]
    unfold joinEvent.joinFresh
    rw [hev]
  refine ⟨?_, ?_⟩
  · intro hmax
    have hfull : eventIsFull ev (confirmedOf db eid).length = false := by
      unfold eventIsFull
      rw [hmax]
    rw [hred, hfull]
    simp [createRecord]
  · intro m hmax
    have hfull : eventIsFull ev (confirmedOf db eid).length =
        decide (((confirmedOf db eid).length : Int) ≥ m) := by
      unfold eventIsFull
      rw [hmax]
    constructor
    · intro hge
      have hd : eventIsFull ev (confirmedOf db eid).length = true := by
        rw [hfull]
        simpa using hge
      rw [hred, hd]
      simp [createRecord]
    · intro hlt
      have hd : eventIsFull ev (confirmedOf db eid).length = false := by
        rw [hfull]
        simpa using hlt
      rw [hred, hd]
      simp [createRecord]

/-- Witness for `joinEvent_fresh_spec`: a full event (max 1, one CONFIRMED
member) waitlists the next joiner. -/
theorem joinEvent_fresh_spec_witness :
    ((joinEvent ⟨[⟨"e1", "t", some 1⟩],
        [⟨0, "e1", "X", PStatus.CONFIRMED, 5⟩], 1, 9⟩ "e1" "Y").1 =
      ⟨true, RStatus.WAITLISTED, none⟩ ∧
    (joinEvent ⟨[⟨"e1", "t", some 1⟩],
        [⟨0, "e1", "X", PStatus.CONFIRMED, 5⟩], 1, 9⟩ "e1" "Y").2.participants =
      [⟨0, "e1", "X", PStatus.CONFIRMED, 5⟩] ++
        [⟨1, "e1", "Y", PStatus.WAITLISTED, 9⟩]) :=
  (((joinEvent_fresh_spec ⟨[⟨"e1", "t", some 1⟩],
      [⟨0, "e1", "X", PStatus.CONFIRMED, 5⟩], 1, 9⟩ "e1" "Y"
      ⟨"e1", "t", some 1⟩ rfl rfl).2 1 rfl).1 (by decide))

/-! ## C4: idempotent re-join -/

theorem joinEvent_existing_confirmed (db : DB) (eid uid : String)
    {p : EventParticipant} (hp : findRecord db eid uid = some p)
    (hs : p.status = PStatus.CONFIRMED) :
    joinEvent db eid uid = (⟨false, RStatus.ALREADY_JOINED, none⟩, db) := by
  unfold joinEvent
  rw [hp]
  simp [hs]

theorem joinEvent_existing_waitlisted (db : DB) (eid uid : String)
    {p : EventParticipant} (hp : findRecord db eid uid = some p)
    (hs : p.status = PStatus.WAITLISTED) :
    joinEvent db eid uid = (⟨false, RStatus.WAITLISTED, none⟩, db) := by
  unfold joinEvent
  rw [hp]
  simp [hs]

theorem joinEvent_existing_cancelled (db : DB) (eid uid : String)
    {p : EventParticipant} (hp : findRecord db eid uid = some p)
    (hs : p.status = PStatus.CANCELLED) :
    joinEvent db eid uid = joinEvent.joinFresh (deleteRecord db p.id) eid uid := by
  unfold joinEvent
  rw [hp]
  simp [hs]

/-- Behaviour of a join from a state with no record for the pair, followed by
an immediate second join: at most one row results and the second call
reports the existing registration without mutating anything. -/
theorem joinFresh_then_join (db : DB) (eid uid : String)
    (h3 : findRecord db eid uid = none) :
    (pairRecords (joinEvent.joinFresh db eid uid).2 eid uid).length ≤ 1 ∧
    (joinEvent (joinEvent.joinFresh db eid uid).2 eid uid).2 =
      (joinEvent.joinFresh db eid uid).2 ∧
    (∀ p, findRecord (joinEvent.joinFresh db eid uid).2 eid uid = some p →
      (p.status = PStatus.CONFIRMED →
        (joinEvent (joinEvent.joinFresh db eid uid).2 eid uid).1 =
          ⟨false, RStatus.ALREADY_JOINED, none⟩) ∧
      (p.status = PStatus.WAITLISTED →
        (joinEvent (joinEvent.joinFresh db eid uid).2 eid uid).1 =
          ⟨false, RStatus.WAITLISTED, none⟩)) := by
  have hpair0 : pairRecords db eid uid = [] := (pairRecords_eq_nil_iff db eid uid).2 h3
  cases hev : findEvent db eid with
  | none =>
      have hjf : joinEvent.joinFresh db eid uid =
          (⟨false, RStatus.NOT_FOUND, none⟩, db) := by
        unfold joinEvent.joinFresh
        rw [hev]
      have hsecond : joinEvent db eid uid = (⟨false, RStatus.NOT_FOUND, none⟩, db) := by
        unfold joinEvent
        rw [h3]
        exact hjf
      rw [hjf]
      refine ⟨by simp [hpair0], ?_, ?_⟩
      · show (joinEvent db eid uid).2 = db
        rw [hsecond]
      · intro p hp
        have hp' : findRecord db eid uid = some p := hp
        rw [h3] at hp'
        cases hp' 
  | some ev =>
      by_cases hf : eventIsFull ev (confirmedOf db eid).length
      · have hjf : joinEvent.joinFresh db eid uid =
            (⟨true, RStatus.WAITLISTED, none⟩,
              createRecord db eid uid PStatus.WAITLISTED) := by
          unfold joinEvent.joinFresh
          rw [hev]
          simp [hf]
        have hfr := findRecord_createRecord_self db eid uid PStatus.WAITLISTED h3
        have hsecond := joinEvent_existing_waitlisted
          (createRecord db eid uid PStatus.WAITLISTED) eid uid hfr rfl
        rw [hjf]
        refine ⟨?_, ?_, ?_⟩
        · show (pairRecords (createRecord db eid uid PStatus.WAITLISTED) eid uid).length ≤ 1
          rw [pairRecords_createRecord, hpair0]
          simp
        · show (joinEvent (createRecord db eid uid PStatus.WAITLISTED) eid uid).2 =
            createRecord db eid uid PStatus.WAITLISTED
          rw [hsecond]
        · intro p hp
          have hp' : findRecord (createRecord db eid uid PStatus.WAITLISTED) eid uid =
              some p := hp
          rw [hfr] at hp'
          injection hp' with hp'
          subst hp' 
          refine ⟨?_, ?_⟩
          · intro habs
            simp at habs
          · intro _
            show (joinEvent (createRecord db eid uid PStatus.WAITLISTED) eid uid).1 = _
            rw [hsecond]
      · have hjf : joinEvent.joinFresh db eid uid =
            (⟨true, RStatus.CONFIRMED, none⟩,
              createRecord db eid uid PStatus.CONFIRMED) := by
          unfold joinEvent.joinFresh
          rw [hev]
          simp [hf]
        have hfr := findRecord_createRecord_self db eid uid PStatus.CONFIRMED h3
        have hsecond := joinEvent_existing_confirmed
          (createRecord db eid uid PStatus.CONFIRMED) eid uid hfr rfl
        rw [hjf]
        refine ⟨?_, ?_, ?_⟩
        · show (pairRecords (createRecord db eid uid PStatus.CONFIRMED) eid uid).length ≤ 1
          rw [pairRecords_createRecord, hpair0]
          simp
        · show (joinEvent (createRecord db eid uid PStatus.CONFIRMED) eid uid).2 =
            createRecord db eid uid PStatus.CONFIRMED
          rw [hsecond]
        · intro p hp
          have hp' : findRecord (createRecord db eid uid PStatus.CONFIRMED) eid uid =
              some p := hp
          rw [hfr] at hp'
          injection hp' with hp'
          subst hp' 
          refine ⟨?_, ?_⟩
          · intro _
            show (joinEvent (createRecord db eid uid PStatus.CONFIRMED) eid uid).1 = _
            rw [hsecond]
          · intro habs
            simp at habs

/-- C4: with the compound unique key `(eventId, userId)` holding initially
(at most one row for the pair), calling Join twice in immediate succession
never produces two attendance rows: after the first call the pair still has
at most one row, the second call leaves the database exactly as the first
left it, and if a record exists after the first call the second call
returns the already-registered variant matching its status
(`{success: false, status: 'ALREADY_JOINED'}` — the spec's
ALREADY_CONFIRMED — for CONFIRMED, `{success: false, status: 'WAITLISTED'}`
— the spec's ALREADY_WAITLISTED — for WAITLISTED). -/
theorem joinEvent_twice_no_duplicate (db : DB) (eid uid : String)
    (hU : (pairRecords db eid uid).length ≤ 1) :
    (pairRecords (joinEvent db eid uid).2 eid uid).length ≤ 1 ∧
    (joinEvent (joinEvent db eid uid).2 eid uid).2 = (joinEvent db eid uid).2 ∧
    (∀ p, findRecord (joinEvent db eid uid).2 eid uid = some p →
      (p.status = PStatus.CONFIRMED →
        (joinEvent (joinEvent db eid uid).2 eid uid).1 =
          ⟨false, RStatus.ALREADY_JOINED, none⟩) ∧
      (p.status = PStatus.WAITLISTED →
        (joinEvent (joinEvent db eid uid).2 eid uid).1 =
          ⟨false, RStatus.WAITLISTED, none⟩)) := by
  cases hp : findRecord db eid uid with
  | none =>
      have hj : joinEvent db eid uid = joinEvent.joinFresh db eid uid := by
        unfold joinEvent
        rw [hp]
      rw [hj]
      exact joinFresh_then_join db eid uid hp
  | some p =>
      cases hs : p.status with
      | CONFIRMED =>
          have h1 := joinEvent_existing_confirmed db eid uid hp hs
          have hdb1 : (joinEvent db eid uid).2 = db := by rw [h1]
          rw [hdb1]
          refine ⟨hU, hdb1, ?_⟩
          intro q hq
          rw [hp] at hq
          injection hq with hq
          subst hq
          refine ⟨fun _ => by rw [h1], fun habs => ?_⟩
          rw [hs] at habs
          cases habs
      | WAITLISTED =>
          have h1 := joinEvent_existing_waitlisted db eid uid hp hs
          have hdb1 : (joinEvent db eid uid).2 = db := by rw [h1]
          rw [hdb1]
          refine ⟨hU, hdb1, ?_⟩
          intro q hq
          rw [hp] at hq
          injection hq with hq
          subst hq
          refine ⟨fun habs => ?_, fun _ => by rw [h1]⟩
          rw [hs] at habs
          cases habs
      | CANCELLED =>
          have h1 := joinEvent_existing_cancelled db eid uid hp hs
          have hpair : pairRecords db eid uid = [p] :=
            pairRecords_singleton hU (findRecord_mem_pairRecords hp)
          have h2 : pairRecords (deleteRecord db p.id) eid uid = [] := by
            rw [pairRecords_deleteRecord, hpair]
            simp
          have h3 : findRecord (deleteRecord db p.id) eid uid = none :=
            (pairRecords_eq_nil_iff _ _ _).1 h2
          rw [h1]
          exact joinFresh_then_join (deleteRecord db p.id) eid uid h3

/-- Witness for `joinEvent_twice_no_duplicate`: joining an empty event with
capacity 1 twice yields one row and an `ALREADY_JOINED` second response. -/
theorem joinEvent_twice_no_duplicate_witness :
    (pairRecords (joinEvent ⟨[⟨"e1", "t", some 1⟩], [], 0, 5⟩ "e1" "X").2
        "e1" "X").length ≤ 1 ∧
    (joinEvent (joinEvent ⟨[⟨"e1", "t", some 1⟩], [], 0, 5⟩ "e1" "X").2
        "e1" "X").2 =
      (joinEvent ⟨[⟨"e1", "t", some 1⟩], [], 0, 5⟩ "e1" "X").2 ∧
    (joinEvent (joinEvent ⟨[⟨"e1", "t", some 1⟩], [], 0, 5⟩ "e1" "X").2
        "e1" "X").1 = ⟨false, RStatus.ALREADY_JOINED, none⟩ := by
  have h := joinEvent_twice_no_duplicate ⟨[⟨"e1", "t", some 1⟩], [], 0, 5⟩
    "e1" "X" (by decide)
  exact ⟨h.1, h.2.1,
    (h.2.2 ⟨0, "e1", "X", PStatus.CONFIRMED, 5⟩ (by decide)).1 rfl⟩

/-! ## Cancellation and promotion lemmas -/

theorem firstWaitlisted_aux (l : List EventParticipant) :
    ∀ (acc : Option EventParticipant) (p : EventParticipant),
      l.foldl (fun acc p => match acc with
        | none => some p
        | some q => if p.joinedAt < q.joinedAt then some p else some q) acc = some p →
      ((acc = some p ∨ p ∈ l) ∧ (∀ q, acc = some q → p.joinedAt ≤ q.joinedAt) ∧
        ∀ q ∈ l, p.joinedAt ≤ q.joinedAt) := by
  induction l with
  | nil =>
      intro acc p h
      simp only [List.foldl_nil] at h
      refine ⟨Or.inl h, ?_, by simp⟩
      intro q hq
      rw [h] at hq
      injection hq with hq
      rw [hq]
  | cons x xs ih =>
      intro acc p h
      simp only [List.foldl_cons] at h
      cases acc with
      | none =>
          have h' : xs.foldl (fun acc p => match acc with
              | none => some p
              | some q => if p.joinedAt < q.joinedAt then some p else some q)
              (some x) = some p := h
          obtain ⟨hmem, hacc, hxs⟩ := ih (some x) p h'
          have hpx : p.joinedAt ≤ x.joinedAt := hacc x rfl
          refine ⟨?_, ?_, ?_⟩
          · cases hmem with
            | inl he =>
                injection he with he
                exact Or.inr (he ▸ List.mem_cons_self x xs)
            | inr hm => exact Or.inr (List.mem_cons_of_mem x hm)
          · intro q hq
            exact Option.noConfusion hq
          · intro q hq
            cases List.mem_cons.1 hq with
            | inl he => rw [he]; exact hpx
            | inr hm => exact hxs q hm
      | some a =>
          by_cases hlt : x.joinedAt < a.joinedAt
          · have h' : xs.foldl (fun acc p => match acc with
                | none => some p
                | some q => if p.joinedAt < q.joinedAt then some p else some q)
                (some x) = some p := by
              rw [← h]
              congr 1
              simp [hlt]
            obtain ⟨hmem, hacc, hxs⟩ := ih (some x) p h'
            have hpx : p.joinedAt ≤ x.joinedAt := hacc x rfl
            refine ⟨?_, ?_, ?_⟩
            · cases hmem with
              | inl he =>
                  injection he with he
                  exact Or.inr (he ▸ List.mem_cons_self x xs)
              | inr hm => exact Or.inr (List.mem_cons_of_mem x hm)
            · intro q hq
              injection hq with hq
              rw [← hq]
              exact le_trans hpx (le_of_lt hlt)
            · intro q hq
              cases List.mem_cons.1 hq with
              | inl he => rw [he]; exact hpx
              | inr hm => exact hxs q hm
          · have h' : xs.foldl (fun acc p => match acc with
                | none => some p
                | some q => if p.joinedAt < q.joinedAt then some p else some q)
                (some a) = some p := by
              rw [← h]
              congr 1
              simp [hlt]
            obtain ⟨hmem, hacc, hxs⟩ := ih (some a) p h'
            have hpa : p.joinedAt ≤ a.joinedAt := hacc a rfl
            refine ⟨?_, ?_, ?_⟩
            · cases hmem with
              | inl he => exact Or.inl he
              | inr hm => exact Or.inr (List.mem_cons_of_mem x hm)
            · intro q hq
              injection hq with hq
              rw [← hq]
              exact hpa
            · intro q hq
              cases List.mem_cons.1 hq with
              | inl he =>
                  rw [he]
                  exact le_trans hpa (le_of_not_lt hlt)
              | inr hm => exact hxs q hm

/-- The record picked by `findFirst … orderBy joinedAt asc` is a waitlisted
record of the event. -/
theorem firstWaitlisted_mem {db : DB} {e : String} {p : EventParticipant}
    (h : firstWaitlisted db e = some p) : p ∈ waitlistedOf db e := by
  obtain ⟨hmem, -, -⟩ := firstWaitlisted_aux (waitlistedOf db e) none p h
  cases hmem with
  | inl he => cases he
  | inr hm => exact hm

/-- The record picked by `findFirst … orderBy joinedAt asc` has minimal
`joinedAt` among the event's waitlisted records. -/
theorem firstWaitlisted_min {db : DB} {e : String} {p : EventParticipant}
    (h : firstWaitlisted db e = some p) :
    ∀ q ∈ waitlistedOf db e, p.joinedAt ≤ q.joinedAt := by
  obtain ⟨-, -, hmin⟩ := firstWaitlisted_aux (waitlistedOf db e) none p h
  exact hmin

theorem firstWaitlisted_eq_none_iff (db : DB) (e : String) :
    firstWaitlisted db e = none ↔ waitlistedOf db e = [] := by
  unfold firstWaitlisted
  generalize waitlistedOf db e = l
  constructor
  · intro h
    cases l with
    | nil => rfl
    | cons x xs =>
        exfalso
        have : ∀ (m : List EventParticipant) (a : EventParticipant),
            m.foldl (fun acc p => match acc with
              | none => some p
              | some q => if p.joinedAt < q.joinedAt then some p else some q)
              (some a) ≠ none := by
          intro m
          induction m with
          | nil => intro a hh; cases hh
          | cons y ys ihy =>
              intro a hh
              simp only [List.foldl_cons] at hh
              by_cases hlt : y.joinedAt < a.joinedAt
              · exact ihy y (by rw [← hh]; congr 1; simp [hlt])
              · exact ihy a (by rw [← hh]; congr 1; simp [hlt])
        exact this xs x (by simpa using h)
  · intro h
    rw [h]
    rfl

theorem waitlistedOf_deleteRecord (db : DB) (i : Nat) (e : String) :
    waitlistedOf (deleteRecord db i) e =
      (waitlistedOf db e).filter fun r => r.id ≠ i := by
  simp only [waitlistedOf, deleteRecord, List.filter_filter]
  congr 1
  funext r
  rw [Bool.and_comm]

theorem waitlistedOf_updateStatus_confirmed (db : DB) (i : Nat) (e : String) :
    waitlistedOf (updateStatus db i PStatus.CONFIRMED) e =
      (waitlistedOf db e).filter fun r => r.id ≠ i := by
  simp only [waitlistedOf, updateStatus]
  induction db.participants with
  | nil => rfl
  | cons x xs ihx =>
      simp only [List.map_cons, List.filter_cons]
      by_cases hid : x.id = i
      · by_cases hw : x.eventId = e ∧ x.status = PStatus.WAITLISTED
        · simp [hid, hw.1, hw.2]
          simpa using ihx
        · simp [hid, hw]
          simpa using ihx
      · by_cases hw : x.eventId = e ∧ x.status = PStatus.WAITLISTED
        · simp [hid, hw.1, hw.2]
          simpa using ihx
        · simp [hid, hw]
          simpa using ihx

/-- Records with the same primary key are equal when ids are unique. -/
theorem eq_of_id_eq {l : List EventParticipant}
    (hids : (l.map EventParticipant.id).Nodup)
    {q r : EventParticipant} (hq : q ∈ l) (hr : r ∈ l) (h : q.id = r.id) :
    q = r :=
  List.inj_on_of_nodup_map hids hq hr h

/-- Deleting a CONFIRMED record leaves the event's waitlist unchanged
(given unique ids). -/
theorem waitlistedOf_delete_confirmed (db : DB) (eid : String)
    {p : EventParticipant}
    (hids : (db.participants.map EventParticipant.id).Nodup)
    (hmem : p ∈ db.participants) (hs : p.status = PStatus.CONFIRMED) :
    waitlistedOf (deleteRecord db p.id) eid = waitlistedOf db eid := by
  rw [waitlistedOf_deleteRecord]
  apply List.filter_eq_self.2
  intro q hq
  have hqmem : q ∈ db.participants := (List.mem_filter.1 hq).1
  have hqw : q.status = PStatus.WAITLISTED := by
    have := (List.mem_filter.1 hq).2
    simp only [decide_eq_true_eq] at this
    exact this.2
  simp only [ne_eq, decide_eq_true_eq]
  intro hqid
  have : q = p := eq_of_id_eq hids hqmem hmem hqid
  rw [this, hs] at hqw
  cases hqw

/-! ## C3: cancellation and single promotion -/

/-- C3: a sequential Cancel of an existing record deletes it; if the record
was CONFIRMED and a waitlisted member exists, the result is PROMOTED with
the id of a waitlisted member whose joined-at is minimal among those
waitlisted at cancellation time, and exactly that member leaves the
waitlist; if the record was WAITLISTED, or no waitlisted member exists,
the result is CANCELLED and the state change is the deletion alone. -/
theorem cancelEvent_spec (db : DB) (eid uid : String) (p : EventParticipant)
    (hids : (db.participants.map EventParticipant.id).Nodup)
    (hp : findRecord db eid uid = some p) :
    (p.status = PStatus.CONFIRMED →
      (waitlistedOf db eid ≠ [] →
        ∃ nw, firstWaitlisted (deleteRecord db p.id) eid = some nw) ∧
      (∀ nw, firstWaitlisted (deleteRecord db p.id) eid = some nw →
        (cancelEvent db eid uid).1 = ⟨true, RStatus.PROMOTED, some nw.userId⟩ ∧
        nw ∈ waitlistedOf db eid ∧
        (∀ q ∈ waitlistedOf db eid, nw.joinedAt ≤ q.joinedAt) ∧
        waitlistedOf (cancelEvent db eid uid).2 eid =
          (waitlistedOf db eid).filter fun r => r.id ≠ nw.id) ∧
      (firstWaitlisted (deleteRecord db p.id) eid = none →
        (cancelEvent db eid uid).1 = ⟨true, RStatus.CANCELLED, none⟩ ∧
        (cancelEvent db eid uid).2.participants =
          db.participants.filter fun r => r.id ≠ p.id)) ∧
    (p.status ≠ PStatus.CONFIRMED →
      (cancelEvent db eid uid).1 = ⟨true, RStatus.CANCELLED, none⟩ ∧
      (cancelEvent db eid uid).2.participants =
        db.participants.filter fun r => r.id ≠ p.id) := by
  have hpmem : p ∈ db.participants := List.mem_of_find?_eq_some hp
  constructor
  · intro hs
    have hwl : waitlistedOf (deleteRecord db p.id) eid = waitlistedOf db eid :=
      waitlistedOf_delete_confirmed db eid hids hpmem hs
    refine ⟨?_, ?_, ?_⟩
    · intro hne
      cases hfw : firstWaitlisted (deleteRecord db p.id) eid with
      | none =>
          exfalso
          apply hne
          rw [← hwl]
          exact (firstWaitlisted_eq_none_iff _ _).1 hfw
      | some nw => exact ⟨nw, rfl⟩
    · intro nw hw
      have hceq : cancelEvent db eid uid =
          (⟨true, RStatus.PROMOTED, some nw.userId⟩,
            updateStatus (deleteRecord db p.id) nw.id PStatus.CONFIRMED) := by
        unfold cancelEvent
        rw [hp]
        simp [hs, hw]
      refine ⟨by rw [hceq], ?_, ?_, ?_⟩
      · rw [← hwl]
        exact firstWaitlisted_mem hw
      · intro q hq
        exact firstWaitlisted_min hw q (by rwa [hwl])
      · rw [hceq]
        show waitlistedOf (updateStatus (deleteRecord db p.id) nw.id
          PStatus.CONFIRMED) eid = _
        rw [waitlistedOf_updateStatus_confirmed, hwl]
    · intro hwnone
      have hceq : cancelEvent db eid uid =
          (⟨true, RStatus.CANCELLED, none⟩, deleteRecord db p.id) := by
        unfold cancelEvent
        rw [hp]
        simp [hs, hwnone]
      rw [hceq]
      exact ⟨rfl, rfl⟩
  · intro hs
    have hceq : cancelEvent db eid uid =
        (⟨true, RStatus.CANCELLED, none⟩, deleteRecord db p.id) := by
      unfold cancelEvent
      rw [hp]
      simp [hs]
    rw [hceq]
    exact ⟨rfl, rfl⟩

/-- Witness for `cancelEvent_spec`: cancelling CONFIRMED X promotes Y, the
earliest of the two waitlisted members, and only Y leaves the waitlist. -/
theorem cancelEvent_spec_witness :
    (cancelEvent ⟨[⟨"e1", "t", some 1⟩],
        [⟨0, "e1", "X", PStatus.CONFIRMED, 1⟩,
         ⟨1, "e1", "Y", PStatus.WAITLISTED, 2⟩,
         ⟨2, "e1", "Z", PStatus.WAITLISTED, 3⟩], 3, 9⟩ "e1" "X").1 =
      ⟨true, RStatus.PROMOTED, some "Y"⟩ ∧
    waitlistedOf (cancelEvent ⟨[⟨"e1", "t", some 1⟩],
        [⟨0, "e1", "X", PStatus.CONFIRMED, 1⟩,
         ⟨1, "e1", "Y", PStatus.WAITLISTED, 2⟩,
         ⟨2, "e1", "Z", PStatus.WAITLISTED, 3⟩], 3, 9⟩ "e1" "X").2 "e1" =
      [⟨2, "e1", "Z", PStatus.WAITLISTED, 3⟩] := by
  have h := ((cancelEvent_spec ⟨[⟨"e1", "t", some 1⟩],
      [⟨0, "e1", "X", PStatus.CONFIRMED, 1⟩,
       ⟨1, "e1", "Y", PStatus.WAITLISTED, 2⟩,
       ⟨2, "e1", "Z", PStatus.WAITLISTED, 3⟩], 3, 9⟩ "e1" "X"
      ⟨0, "e1", "X", PStatus.CONFIRMED, 1⟩ (by decide) (by decide)).1 rfl).2.1
    ⟨1, "e1", "Y", PStatus.WAITLISTED, 2⟩ (by decide)
  refine ⟨h.1, ?_⟩
  rw [h.2.2.2]
  decide

/-! ## C10: promotion frame property -/

/-- C10: when Cancel promotes a waitlisted member, the promoted row keeps
its id, event, member and joined-at and only its status becomes CONFIRMED;
every row other than the deleted one and the promoted one survives
unchanged, nothing else appears, and the deleted row is gone. -/
theorem cancelEvent_promotion_frame (db : DB) (eid uid : String)
    (p nw : EventParticipant)
    (hids : (db.participants.map EventParticipant.id).Nodup)
    (hp : findRecord db eid uid = some p)
    (hs : p.status = PStatus.CONFIRMED)
    (hw : firstWaitlisted (deleteRecord db p.id) eid = some nw) :
    { nw with status := PStatus.CONFIRMED } ∈
      (cancelEvent db eid uid).2.participants ∧
    (∀ r ∈ db.participants, r.id ≠ p.id → r.id ≠ nw.id →
      r ∈ (cancelEvent db eid uid).2.participants) ∧
    (∀ r ∈ (cancelEvent db eid uid).2.participants,
      r = { nw with status := PStatus.CONFIRMED } ∨
        (r ∈ db.participants ∧ r.id ≠ p.id)) ∧
    (∀ r ∈ (cancelEvent db eid uid).2.participants, r.id ≠ p.id) := by
  have hceq : cancelEvent db eid uid =
      (⟨true, RStatus.PROMOTED, some nw.userId⟩,
        updateStatus (deleteRecord db p.id) nw.id PStatus.CONFIRMED) := by
    unfold cancelEvent
    rw [hp]
    simp [hs, hw]
  have hnw1 : nw ∈ (deleteRecord db p.id).participants :=
    (List.mem_filter.1 (firstWaitlisted_mem hw)).1
  have hids1 : ((deleteRecord db p.id).participants.map EventParticipant.id).Nodup :=
    List.Nodup.sublist (List.Sublist.map _ (List.filter_sublist _)) hids
  rw [hceq]
  refine ⟨?_, ?_, ?_, ?_⟩
  · show { nw with status := PStatus.CONFIRMED } ∈
      ((deleteRecord db p.id).participants.map fun q =>
        if q.id = nw.id then { q with status := PStatus.CONFIRMED } else q)
    exact List.mem_map.2 ⟨nw, hnw1, by simp⟩
  · intro r hr hrp hrnw
    have hr1 : r ∈ (deleteRecord db p.id).participants := by
      simp only [deleteRecord, List.mem_filter]
      exact ⟨hr, by simpa using hrp⟩
    show r ∈ ((deleteRecord db p.id).participants.map fun q =>
      if q.id = nw.id then { q with status := PStatus.CONFIRMED } else q)
    exact List.mem_map.2 ⟨r, hr1, by rw [if_neg hrnw]⟩
  · intro r hr
    obtain ⟨q, hq1, hq2⟩ := List.mem_map.1 hr
    by_cases hqid : q.id = nw.id
    · left
      have : q = nw := eq_of_id_eq hids1 hq1 hnw1 hqid
      rw [← hq2, if_pos hqid, this]
    · right
      rw [← hq2, if_neg hqid]
      have := List.mem_filter.1 hq1
      exact ⟨this.1, by simpa using this.2⟩
  · intro r hr
    obtain ⟨q, hq1, hq2⟩ := List.mem_map.1 hr
    have hqp : q.id ≠ p.id := by
      have := (List.mem_filter.1 hq1).2
      simpa using this
    have hrid : r.id = q.id := by
      rw [← hq2]
      by_cases hqid : q.id = nw.id
      · rw [if_pos hqid]
      · rw [if_neg hqid]
    rw [hrid]
    exact hqp

/-- Witness for `cancelEvent_promotion_frame` on the concrete
three-member roster: Y's row keeps joined-at 2, Z's row is untouched. -/
theorem cancelEvent_promotion_frame_witness :
    (⟨1, "e1", "Y", PStatus.CONFIRMED, 2⟩ : EventParticipant) ∈
      (cancelEvent ⟨[⟨"e1", "t", some 1⟩],
        [⟨0, "e1", "X", PStatus.CONFIRMED, 1⟩,
         ⟨1, "e1", "Y", PStatus.WAITLISTED, 2⟩,
         ⟨2, "e1", "Z", PStatus.WAITLISTED, 3⟩], 3, 9⟩ "e1" "X").2.participants ∧
    (⟨2, "e1", "Z", PStatus.WAITLISTED, 3⟩ : EventParticipant) ∈
      (cancelEvent ⟨[⟨"e1", "t", some 1⟩],
        [⟨0, "e1", "X", PStatus.CONFIRMED, 1⟩,
         ⟨1, "e1", "Y", PStatus.WAITLISTED, 2⟩,
         ⟨2, "e1", "Z", PStatus.WAITLISTED, 3⟩], 3, 9⟩ "e1" "X").2.participants := by
  have h := cancelEvent_promotion_frame ⟨[⟨"e1", "t", some 1⟩],
      [⟨0, "e1", "X", PStatus.CONFIRMED, 1⟩,
       ⟨1, "e1", "Y", PStatus.WAITLISTED, 2⟩,
       ⟨2, "e1", "Z", PStatus.WAITLISTED, 3⟩], 3, 9⟩ "e1" "X"
    ⟨0, "e1", "X", PStatus.CONFIRMED, 1⟩ ⟨1, "e1", "Y", PStatus.WAITLISTED, 2⟩
    (by decide) (by decide) rfl (by decide)
  exact ⟨h.1, h.2.1 ⟨2, "e1", "Z", PStatus.WAITLISTED, 3⟩
    (by decide) (by decide) (by decide)⟩

/-! ## C1: the count-then-insert race -/

/-- A thread run to completion without interference computes exactly
`joinEvent`: the step model cuts `joinEvent` at its `await` boundaries and
nothing else. -/
theorem joinStep_run_eq_joinEvent (db : DB) (eid uid : String) :
    runJoins [⟨eid, uid, JoinPC.start⟩] db [0, 0, 0, 0] =
      ([⟨eid, uid, JoinPC.done (joinEvent db eid uid).1⟩],
        (joinEvent db eid uid).2) := by
  cases hr : findRecord db eid uid with
  | some ex =>
      cases hs : ex.status with
      | CONFIRMED =>
          have hj := joinEvent_existing_confirmed db eid uid hr hs
          simp [runJoins, joinStep, JoinThread.withPC, hr, hs, hj]
      | WAITLISTED =>
          have hj := joinEvent_existing_waitlisted db eid uid hr hs
          simp [runJoins, joinStep, JoinThread.withPC, hr, hs, hj]
      | CANCELLED =>
          have hj := joinEvent_existing_cancelled db eid uid hr hs
          rw [hj]
          cases hev : findEvent (deleteRecord db ex.id) eid with
          | none =>
              have hjf : joinEvent.joinFresh (deleteRecord db ex.id) eid uid =
                  (⟨false, RStatus.NOT_FOUND, none⟩, deleteRecord db ex.id) := by
                unfold joinEvent.joinFresh
                rw [hev]
              simp [runJoins, joinStep, JoinThread.withPC, hr, hs, hev, hjf]
          | some ev =>
              by_cases hf : eventIsFull ev
                (confirmedOf (deleteRecord db ex.id) eid).length
              · have hjf : joinEvent.joinFresh (deleteRecord db ex.id) eid uid =
                    (⟨true, RStatus.WAITLISTED, none⟩,
                      createRecord (deleteRecord db ex.id) eid uid
                        PStatus.WAITLISTED) := by
                  unfold joinEvent.joinFresh
                  rw [hev]
                  simp [hf]
                simp [runJoins, joinStep, JoinThread.withPC, hr, hs, hev, hf, hjf]
              · have hjf : joinEvent.joinFresh (deleteRecord db ex.id) eid uid =
                    (⟨true, RStatus.CONFIRMED, none⟩,
                      createRecord (deleteRecord db ex.id) eid uid
                        PStatus.CONFIRMED) := by
                  unfold joinEvent.joinFresh
                  rw [hev]
                  simp [hf]
                simp [runJoins, joinStep, JoinThread.withPC, hr, hs, hev, hf, hjf]
  | none =>
      have hj : joinEvent db eid uid = joinEvent.joinFresh db eid uid := by
        unfold joinEvent
        rw [hr]
      rw [hj]
      cases hev : findEvent db eid with
      | none =>
          have hjf : joinEvent.joinFresh db eid uid =
              (⟨false, RStatus.NOT_FOUND, none⟩, db) := by
            unfold joinEvent.joinFresh
            rw [hev]
          simp [runJoins, joinStep, JoinThread.withPC, hr, hev, hjf]
      | some ev =>
          by_cases hf : eventIsFull ev (confirmedOf db eid).length
          · have hjf : joinEvent.joinFresh db eid uid =
                (⟨true, RStatus.WAITLISTED, none⟩,
                  createRecord db eid uid PStatus.WAITLISTED) := by
              unfold joinEvent.joinFresh
              rw [hev]
              simp [hf]
            simp [runJoins, joinStep, JoinThread.withPC, hr, hev, hf, hjf]
          · have hjf : joinEvent.joinFresh db eid uid =
                (⟨true, RStatus.CONFIRMED, none⟩,
                  createRecord db eid uid PStatus.CONFIRMED) := by
              unfold joinEvent.joinFresh
              rw [hev]
              simp [hf]
            simp [runJoins, joinStep, JoinThread.withPC, hr, hev, hf, hjf]

/-- C1 fails on the code: with `maxParticipants = 1` and an empty roster,
two concurrent `joinEvent` calls interleaved at the `await` boundaries
(both capacity reads before either insert — nothing in the source wraps the
count-then-insert in a transaction) both observe 0 CONFIRMED rows, both
insert CONFIRMED, and the event ends with 2 CONFIRMED rows, violating
count(CONFIRMED) ≤ maxParticipants = 1. -/
theorem joinEvent_race_capacity_violation :
    (runJoins [⟨"e1", "X", JoinPC.start⟩, ⟨"e1", "Y", JoinPC.start⟩]
        ⟨[⟨"e1", "t", some 1⟩], [], 0, 100⟩ [0, 1, 0, 1, 0, 1]).1 =
      [⟨"e1", "X", JoinPC.done ⟨true, RStatus.CONFIRMED, none⟩⟩,
       ⟨"e1", "Y", JoinPC.done ⟨true, RStatus.CONFIRMED, none⟩⟩] ∧
    (confirmedOf (runJoins [⟨"e1", "X", JoinPC.start⟩, ⟨"e1", "Y", JoinPC.start⟩]
        ⟨[⟨"e1", "t", some 1⟩], [], 0, 100⟩ [0, 1, 0, 1, 0, 1]).2 "e1").length = 2 ∧
    findEvent ⟨[⟨"e1", "t", some 1⟩], [], 0, 100⟩ "e1" =
      some ⟨"e1", "t", some 1⟩ ∧ ¬(2 ≤ (1 : Int)) := by
  refine ⟨rfl, rfl, rfl, by decide⟩

/-! ## Sorting lemmas for the scheduler -/

theorem mem_insertByCountDesc {c a : ScheduleCandidate}
    {l : List ScheduleCandidate} :
    a ∈ insertByCountDesc c l ↔ a = c ∨ a ∈ l := by
  induction l with
  | nil => simp [insertByCountDesc]
  | cons x xs ih =>
      unfold insertByCountDesc
      by_cases h : x.count > c.count
      · rw [if_pos h]
        simp only [List.mem_cons, ih]
        tauto
      · rw [if_neg h]
        simp only [List.mem_cons]

theorem mem_sortByCountDesc {a : ScheduleCandidate} {l : List ScheduleCandidate} :
    a ∈ sortByCountDesc l ↔ a ∈ l := by
  induction l with
  | nil => simp [sortByCountDesc]
  | cons x xs ih =>
      unfold sortByCountDesc
      rw [mem_insertByCountDesc, ih, List.mem_cons]

theorem sorted_insertByCountDesc (c : ScheduleCandidate)
    {l : List ScheduleCandidate}
    (h : List.Pairwise (fun a b => b.count ≤ a.count) l) :
    List.Pairwise (fun a b => b.count ≤ a.count) (insertByCountDesc c l) := by
  induction l with
  | nil => simp [insertByCountDesc]
  | cons x xs ih =>
      rcases List.pairwise_cons.1 h with ⟨hx, hxs⟩
      unfold insertByCountDesc
      by_cases hgt : x.count > c.count
      · rw [if_pos hgt]
        refine List.pairwise_cons.2 ⟨?_, ih hxs⟩
        intro b hb
        rcases mem_insertByCountDesc.1 hb with hbc | hbx
        · rw [hbc]
          exact le_of_lt hgt
        · exact hx b hbx
      · rw [if_neg hgt]
        refine List.pairwise_cons.2 ⟨?_, h⟩
        intro b hb
        rcases List.mem_cons.1 hb with hbx | hbxs
        · rw [hbx]
          exact le_of_not_lt hgt
        · exact le_trans (hx b hbxs) (le_of_not_lt hgt)

theorem sorted_sortByCountDesc (l : List ScheduleCandidate) :
    List.Pairwise (fun a b => b.count ≤ a.count) (sortByCountDesc l) := by
  induction l with
  | nil => simp [sortByCountDesc]
  | cons x xs ih => exact sorted_insertByCountDesc x ih

theorem length_insertByCountDesc (c : ScheduleCandidate)
    (l : List ScheduleCandidate) :
    (insertByCountDesc c l).length = l.length + 1 := by
  induction l with
  | nil => rfl
  | cons x xs ih =>
      unfold insertByCountDesc
      by_cases h : x.count > c.count
      · rw [if_pos h]
        simp [ih]
      · rw [if_neg h]
        simp

theorem length_sortByCountDesc (l : List ScheduleCandidate) :
    (sortByCountDesc l).length = l.length := by
  induction l with
  | nil => rfl
  | cons x xs ih =>
      unfold sortByCountDesc
      rw [length_insertByCountDesc, ih]
      rfl

theorem filter_insertByCountDesc (c : ScheduleCandidate)
    (l : List ScheduleCandidate) (n : Nat) :
    (insertByCountDesc c l).filter (fun x => x.count = n) =
      if c.count = n then c :: l.filter (fun x => x.count = n)
      else l.filter (fun x => x.count = n) := by
  induction l with
  | nil =>
      by_cases hcn : c.count = n
      · simp [insertByCountDesc, hcn]
      · simp [insertByCountDesc, hcn]
  | cons x xs ih =>
      unfold insertByCountDesc
      by_cases hgt : x.count > c.count
      · rw [if_pos hgt]
        by_cases hcn : c.count = n
        · have hxn : ¬(x.count = n) := by omega
          simp [List.filter_cons, hxn, hcn, ih]
        · by_cases hxn : x.count = n
          · simp [List.filter_cons, hxn, hcn, ih]
          · simp [List.filter_cons, hxn, hcn, ih]
      · rw [if_neg hgt]
        by_cases hcn : c.count = n
        · simp [List.filter_cons, hcn]
        · simp [List.filter_cons, hcn]

theorem filter_sortByCountDesc (l : List ScheduleCandidate) (n : Nat) :
    (sortByCountDesc l).filter (fun x => x.count = n) =
      l.filter (fun x => x.count = n) := by
  induction l with
  | nil => rfl
  | cons x xs ih =>
      unfold sortByCountDesc
      rw [filter_insertByCountDesc]
      by_cases hcn : x.count = n
      · rw [if_pos hcn, ih, List.filter_cons, if_pos (by simpa using hcn)]
      · rw [if_neg hcn, ih, List.filter_cons, if_neg (by simpa using hcn)]

theorem filter_take_prefix {α : Type} (p : α → Bool) (n : Nat) (l : List α) :
    (l.take n).filter p <+: l.filter p := by
  conv_rhs => rw [← List.take_append_drop n l]
  rw [List.filter_append]
  exact List.prefix_append _ _

/-! ## C7: minParticipants monotonicity -/

theorem length_filterMap_mono {α β : Type} (f g : α → Option β) (l : List α)
    (h : ∀ x, (f x).isSome → (g x).isSome) :
    (l.filterMap f).length ≤ (l.filterMap g).length := by
  induction l with
  | nil => exact le_refl 0
  | cons x xs ih =>
      cases hf : f x with
      | none =>
          rw [List.filterMap_cons_none hf]
          cases hg : g x with
          | none => rw [List.filterMap_cons_none hg]; exact ih
          | some b =>
              rw [List.filterMap_cons_some hg]
              exact le_trans ih (Nat.le_succ _)
      | some b =>
          have : (g x).isSome := h x (by rw [hf]; rfl)
          obtain ⟨b2, hg⟩ := Option.isSome_iff_exists.1 this
          rw [List.filterMap_cons_some hf, List.filterMap_cons_some hg]
          simpa using ih

theorem candidateOfEntry_isSome_mono (req : List String) {m1 m2 : Int}
    (hm : m1 ≤ m2) (dayF : Option (List Int)) (regc1 regc2 : Nat)
    (entry : CalDate × List String)
    (h : (candidateOfEntry req m2 dayF regc2 entry).isSome) :
    (candidateOfEntry req m1 dayF regc1 entry).isSome := by
  unfold candidateOfEntry at h ⊢
  cases dayF with
  | none =>
      dsimp only at h ⊢
      rw [if_neg (by simp)] at h ⊢
      by_cases h2 : (decide (req.length > 0) &&
          !(req.all fun uid => entry.2.contains uid)) = true
      · rw [if_pos h2] at h
        simp at h
      · rw [if_neg h2] at h ⊢
        by_cases h3 : ((entry.2.length : Int) < m2)
        · rw [if_pos h3] at h
          simp at h
        · have h3' : ¬((entry.2.length : Int) < m1) :=
            fun hl => h3 (lt_of_lt_of_le hl hm)
          rw [if_neg h3']
          simp
  | some f =>
      dsimp only at h ⊢
      by_cases h1 : (decide (f.length > 0) &&
          !(f.contains ((entry.1.getDay : Nat) : Int))) = true
      · rw [if_pos h1] at h
        simp at h
      · rw [if_neg h1] at h ⊢
        by_cases h2 : (decide (req.length > 0) &&
            !(req.all fun uid => entry.2.contains uid)) = true
        · rw [if_pos h2] at h
          simp at h
        · rw [if_neg h2] at h ⊢
          by_cases h3 : ((entry.2.length : Int) < m2)
          · rw [if_pos h3] at h
            simp at h
          · have h3' : ¬((entry.2.length : Int) < m1) :=
              fun hl => h3 (lt_of_lt_of_le hl hm)
            rw [if_neg h3']
            simp

/-- C7: for fixed availabilities, required members, day filter and limit,
raising `minParticipants` never increases the number of candidates
returned by `findOptimalDatesFromData`. -/
theorem findOptimalDates_minParticipants_mono (avs : List Availability)
    (req : List String) (dayF : Option (List Int)) (limit : Nat)
    {m1 m2 : Int} (hm : m1 ≤ m2) :
    (findOptimalDatesFromData avs req m2 dayF limit).length ≤
      (findOptimalDatesFromData avs req m1 dayF limit).length := by
  unfold findOptimalDatesFromData
  rw [List.length_take, List.length_take, length_sortByCountDesc,
    length_sortByCountDesc]
  refine min_le_min (le_refl limit) ?_
  unfold candidatesInOrder
  exact length_filterMap_mono _ _ _
    (fun entry => candidateOfEntry_isSome_mono req hm dayF _ _ entry)

/-- Witness for `findOptimalDates_minParticipants_mono`: raising the
minimum from 1 to 2 shrinks the example result from two candidates to one. -/
theorem findOptimalDates_minParticipants_mono_witness :
    (findOptimalDatesFromData
        [⟨⟨2024, 6, 1⟩, "A"⟩, ⟨⟨2024, 6, 1⟩, "B"⟩, ⟨⟨2024, 6, 2⟩, "A"⟩]
        [] 2 none 3).length ≤
      (findOptimalDatesFromData
        [⟨⟨2024, 6, 1⟩, "A"⟩, ⟨⟨2024, 6, 1⟩, "B"⟩, ⟨⟨2024, 6, 2⟩, "A"⟩]
        [] 1 none 3).length :=
  findOptimalDates_minParticipants_mono
    [⟨⟨2024, 6, 1⟩, "A"⟩, ⟨⟨2024, 6, 1⟩, "B"⟩, ⟨⟨2024, 6, 2⟩, "A"⟩]
    [] none 3 (by decide)

/-! ## C8: weekday/weekend tags -/

/-- `getDay` always lands in 0..6. -/
theorem CalDate.getDay_lt (dt : CalDate) : dt.getDay < 7 := by
  unfold CalDate.getDay
  dsimp only
  omega

/-- Every returned candidate comes from a date-map entry surviving the
filters. -/
theorem mem_findOptimalDatesFromData {cand : ScheduleCandidate}
    {avs : List Availability} {req : List String} {m : Int}
    {dayF : Option (List Int)} {limit : Nat}
    (h : cand ∈ findOptimalDatesFromData avs req m dayF limit) :
    ∃ entry ∈ buildDateMap avs,
      candidateOfEntry req m dayF (registeredCountOf avs) entry = some cand := by
  unfold findOptimalDatesFromData at h
  have h1 : cand ∈ sortByCountDesc (candidatesInOrder avs req m dayF
      (registeredCountOf avs)) := (List.take_sublist _ _).subset h
  have h2 : cand ∈ candidatesInOrder avs req m dayF (registeredCountOf avs) :=
    mem_sortByCountDesc.1 h1
  unfold candidatesInOrder at h2
  exact List.mem_filterMap.1 h2

theorem mem_ite_singleton {x s : String} {c : Prop} [Decidable c] :
    x ∈ (if c then [s] else ([] : List String)) ↔ c ∧ x = s := by
  split_ifs with hc
  · simp [hc]
  · simp [hc]

/-- The weekday tag is on a produced candidate iff its weekday is Mon..Fri,
and the weekend tag iff it is Sun or Sat. -/
theorem candidateOfEntry_weektags {req : List String} {m : Int}
    {dayF : Option (List Int)} {regc : Nat} {entry : CalDate × List String}
    {cand : ScheduleCandidate}
    (h : candidateOfEntry req m dayF regc entry = some cand) :
    (tagWeekday ∈ cand.tags ↔
      (1 ≤ (entry.1.getDay : Int) ∧ (entry.1.getDay : Int) ≤ 5)) ∧
    (tagWeekend ∈ cand.tags ↔
      ((entry.1.getDay : Int) = 0 ∨ (entry.1.getDay : Int) = 6)) := by
  unfold candidateOfEntry at h
  dsimp only at h
  split at h
  · exact Option.noConfusion h
  · split at h
    · exact Option.noConfusion h
    · split at h
      · exact Option.noConfusion h
      · injection h with h
        subst h
        constructor
        · simp [List.mem_append, mem_ite_singleton,
            (by decide : tagWeekday ≠ tagFullAttendance),
            (by decide : tagWeekday ≠ tagHighTurnout),
            (by decide : tagWeekday ≠ tagAllRequired),
            (by decide : tagWeekday ≠ tagWeekend)]
        · simp [List.mem_append, mem_ite_singleton,
            (by decide : tagWeekend ≠ tagFullAttendance),
            (by decide : tagWeekend ≠ tagHighTurnout),
            (by decide : tagWeekend ≠ tagAllRequired),
            (by decide : tagWeekend ≠ tagWeekday)]

/-- C8: every candidate returned by the scheduler carries exactly one of the
two tags `'📅 平日'` (weekday, Mon..Fri) and `'🏖️ 週末'` (weekend, Sat/Sun):
one of the two is always present and never both. -/
theorem findOptimalDates_weektag_exclusive (avs : List Availability)
    (req : List String) (m : Int) (dayF : Option (List Int)) (limit : Nat)
    (cand : ScheduleCandidate)
    (h : cand ∈ findOptimalDatesFromData avs req m dayF limit) :
    (tagWeekday ∈ cand.tags ∧ tagWeekend ∉ cand.tags) ∨
    (tagWeekend ∈ cand.tags ∧ tagWeekday ∉ cand.tags) := by
  obtain ⟨entry, -, hc⟩ := mem_findOptimalDatesFromData h
  obtain ⟨hwd, hwe⟩ := candidateOfEntry_weektags hc
  have hlt : entry.1.getDay < 7 := CalDate.getDay_lt entry.1
  by_cases hw : (1 ≤ (entry.1.getDay : Int) ∧ (entry.1.getDay : Int) ≤ 5)
  · left
    refine ⟨hwd.2 hw, fun hmem => ?_⟩
    have := hwe.1 hmem
    omega
  · right
    have hor : (entry.1.getDay : Int) = 0 ∨ (entry.1.getDay : Int) = 6 := by
      omega
    exact ⟨hwe.2 hor, fun hmem => hw (hwd.1 hmem)⟩

/-- Witness for `findOptimalDates_weektag_exclusive`: the single candidate
for Saturday 2024-06-01 carries the weekend tag and not the weekday tag. -/
theorem findOptimalDates_weektag_exclusive_witness :
    (tagWeekday ∈ (⟨⟨2024, 6, 1⟩, 1, ["A"],
        [tagFullAttendance, tagWeekend]⟩ : ScheduleCandidate).tags ∧
      tagWeekend ∉ (⟨⟨2024, 6, 1⟩, 1, ["A"],
        [tagFullAttendance, tagWeekend]⟩ : ScheduleCandidate).tags) ∨
    (tagWeekend ∈ (⟨⟨2024, 6, 1⟩, 1, ["A"],
        [tagFullAttendance, tagWeekend]⟩ : ScheduleCandidate).tags ∧
      tagWeekday ∉ (⟨⟨2024, 6, 1⟩, 1, ["A"],
        [tagFullAttendance, tagWeekend]⟩ : ScheduleCandidate).tags) :=
  findOptimalDates_weektag_exclusive [⟨⟨2024, 6, 1⟩, "A"⟩] [] 1 none 3
    ⟨⟨2024, 6, 1⟩, 1, ["A"], [tagFullAttendance, tagWeekend]⟩ (by decide)

/-! ## C5: ordering of the output -/

/-- C5 as stated is false: on the input `[(2024-06-02, A), (2024-06-01, B)]`
both candidates have count 1 but the output lists 2024-06-02 first — the
date map's insertion order, not ascending calendar date. -/
theorem findOptimalDates_tiebreak_counterexample :
    ¬ List.Pairwise specCandidateOrder
        (findOptimalDatesFromData
          [⟨⟨2024, 6, 2⟩, "A"⟩, ⟨⟨2024, 6, 1⟩, "B"⟩] [] 1 none 3) := by
  decide

/-- C5 (amended): the output is sorted by available-member count
descending, and candidates with equal counts keep their first-occurrence
(date-map insertion) order from the input — the equal-count candidates of
the output are a prefix of the equal-count survivors in date-map order —
rather than being ordered by ascending calendar date. -/
theorem findOptimalDates_sorted_stable (avs : List Availability)
    (req : List String) (m : Int) (dayF : Option (List Int)) (limit : Nat) :
    List.Pairwise (fun a b => b.count ≤ a.count)
      (findOptimalDatesFromData avs req m dayF limit) ∧
    ∀ n : Nat,
      (findOptimalDatesFromData avs req m dayF limit).filter
          (fun c => c.count = n) <+:
        (candidatesInOrder avs req m dayF (registeredCountOf avs)).filter
          (fun c => c.count = n) := by
  constructor
  · unfold findOptimalDatesFromData
    exact List.Pairwise.sublist (List.take_sublist _ _) (sorted_sortByCountDesc _)
  · intro n
    unfold findOptimalDatesFromData
    have h2 := filter_take_prefix
      (fun c : ScheduleCandidate => decide (c.count = n)) limit
      (sortByCountDesc (candidatesInOrder avs req m dayF (registeredCountOf avs)))
    rw [filter_sortByCountDesc] at h2
    exact h2

/-! ## C6: grouping semantics -/

theorem lookupDate_nil (d : CalDate) :
    lookupDate [] d = none := rfl

theorem lookupDate_cons (k : CalDate) (ms : List String)
    (rest : List (CalDate × List String)) (d : CalDate) :
    lookupDate ((k, ms) :: rest) d =
      if k = d then some ms else lookupDate rest d := by
  unfold lookupDate
  by_cases hk : k = d
  · rw [List.find?_cons_of_pos _ (by simpa using hk), if_pos hk]
    rfl
  · rw [List.find?_cons_of_neg _ (by simpa using hk), if_neg hk]

theorem lookupDate_dateMapInsert (m : List (CalDate × List String))
    (av : Availability) (d : CalDate) :
    lookupDate (dateMapInsert m av) d =
      if d = av.date then some ((lookupDate m d).getD [] ++ [av.userId])
      else lookupDate m d := by
  induction m with
  | nil =>
      have hins : dateMapInsert [] av = [(av.date, [av.userId])] := rfl
      by_cases hd : d = av.date
      · simp [hins, lookupDate_cons, lookupDate_nil, hd]
      · have hda : ¬ av.date = d := fun h => hd h.symm
        simp [hins, lookupDate_cons, lookupDate_nil, hd, hda]
  | cons e rest ih =>
      obtain ⟨k, ms⟩ := e
      by_cases hk : k = av.date
      · have hins : dateMapInsert ((k, ms) :: rest) av =
            (k, ms ++ [av.userId]) :: rest := by
          unfold dateMapInsert
          rw [if_pos hk]
        rw [hins, lookupDate_cons, lookupDate_cons]
        by_cases hkd : k = d
        · have hda : d = av.date := by rw [← hkd, hk]
          simp [hkd, hda]
        · have hda : ¬ d = av.date := by
            intro h
            apply hkd
            rw [hk, ← h]
          simp [hkd, hda]
      · have hins : dateMapInsert ((k, ms) :: rest) av =
            (k, ms) :: dateMapInsert rest av := by
          conv_lhs => unfold dateMapInsert
          rw [if_neg hk]
        rw [hins, lookupDate_cons, lookupDate_cons]
        by_cases hkd : k = d
        · have hda : ¬ d = av.date := by
            intro h
            apply hk
            rw [hkd, h]
          simp [hkd, hda]
        · simp [hkd, ih]

theorem keys_dateMapInsert (m : List (CalDate × List String))
    (av : Availability) :
    (dateMapInsert m av).map Prod.fst =
      if av.date ∈ m.map Prod.fst then m.map Prod.fst
      else m.map Prod.fst ++ [av.date] := by
  induction m with
  | nil => simp [dateMapInsert]
  | cons e rest ih =>
      obtain ⟨k, ms⟩ := e
      by_cases hk : k = av.date
      · simp [dateMapInsert, hk]
      · have hka : ¬ av.date = k := fun h => hk h.symm
        by_cases hmem : av.date ∈ rest.map Prod.fst
        · simp [dateMapInsert, hk, hka, hmem, ih]
        · simp [dateMapInsert, hk, hka, hmem, ih]

theorem buildDateMap_append_singleton (avs : List Availability)
    (av : Availability) :
    buildDateMap (avs ++ [av]) = dateMapInsert (buildDateMap avs) av := by
  unfold buildDateMap
  rw [List.foldl_append]
  rfl

theorem keys_buildDateMap_nodup (avs : List Availability) :
    ((buildDateMap avs).map Prod.fst).Nodup := by
  induction avs using List.reverseRecOn with
  | nil => simp [buildDateMap]
  | append_singleton avs av ih =>
      rw [buildDateMap_append_singleton, keys_dateMapInsert]
      by_cases hmem : av.date ∈ (buildDateMap avs).map Prod.fst
      · rw [if_pos hmem]
        exact ih
      · rw [if_neg hmem]
        simp [List.nodup_append, ih, hmem]

theorem lookupDate_buildDateMap (avs : List Availability) (d : CalDate) :
    lookupDate (buildDateMap avs) d =
      if (avs.filter fun a => a.date = d) = [] then none
      else some ((avs.filter fun a => a.date = d).map Availability.userId) := by
  induction avs using List.reverseRecOn with
  | nil => simp [buildDateMap, lookupDate]
  | append_singleton avs av ih =>
      rw [buildDateMap_append_singleton, lookupDate_dateMapInsert,
        List.filter_append]
      by_cases hd : d = av.date
      · rw [if_pos hd]
        have hfa : ([av].filter fun a => a.date = d) = [av] := by
          simp [hd]
        rw [hfa]
        by_cases hemp : (avs.filter fun a => a.date = d) = []
        · rw [ih, if_pos hemp, hemp]
          simp
        · rw [ih, if_neg hemp]
          simp [hemp]
      · rw [if_neg hd]
        have hfa : ([av].filter fun a => a.date = d) = [] := by
          simp
          intro h
          exact absurd h.symm hd
        rw [hfa, List.append_nil]
        exact ih

theorem lookupDate_of_mem {m : List (CalDate × List String)}
    (hnd : (m.map Prod.fst).Nodup) {e : CalDate × List String} (he : e ∈ m) :
    lookupDate m e.1 = some e.2 := by
  induction m with
  | nil => cases he
  | cons x rest ih =>
      rcases List.mem_cons.1 he with rfl | hm
      · simp [lookupDate, List.find?]
      · have hx : ¬ x.1 = e.1 := by
          intro hEq
          have h1 : e.1 ∈ rest.map Prod.fst := List.mem_map.2 ⟨e, hm, rfl⟩
          exact (List.nodup_cons.1 hnd).1 (hEq ▸ h1)
        have ihr := ih (List.nodup_cons.1 hnd).2 hm
        simp only [lookupDate, List.find?] at ihr ⊢
        rw [show (decide (x.1 = e.1)) = false by simp [hx]]
        exact ihr

/-- C6 as stated is false: the grouping loop appends without
deduplication, so the duplicated fact (2024-06-01, A) yields a candidate
whose members list contains A twice. -/
theorem findOptimalDates_duplicate_counterexample :
    (findOptimalDatesFromData
        [⟨⟨2024, 6, 1⟩, "A"⟩, ⟨⟨2024, 6, 1⟩, "A"⟩] [] 1 none 3).map
      ScheduleCandidate.members = [["A", "A"]] ∧
    ¬ (["A", "A"] : List String).Nodup := by
  exact ⟨rfl, by decide⟩

/-- C6 (amended): provided the input list has no duplicate
(date, member) pairs, each candidate's members list is exactly the user
ids of that date's availability rows, each member appears at most once in
it, and count equals the number of distinct members available on that
date; with duplicate pairs the code keeps the duplicates (list, not set,
semantics). -/
theorem findOptimalDates_groupBy_distinct (avs : List Availability)
    (req : List String) (m : Int) (dayF : Option (List Int)) (limit : Nat)
    (cand : ScheduleCandidate) (hnd : avs.Nodup)
    (h : cand ∈ findOptimalDatesFromData avs req m dayF limit) :
    cand.members =
      (avs.filter fun a => a.date = cand.date).map Availability.userId ∧
    cand.members.Nodup ∧
    cand.count =
      ((avs.filter fun a => a.date = cand.date).map
        Availability.userId).dedup.length := by
  obtain ⟨entry, hmem, hc⟩ := mem_findOptimalDatesFromData h
  have hdm : cand.date = entry.1 ∧ cand.members = entry.2 ∧
      cand.count = entry.2.length := by
    unfold candidateOfEntry at hc
    dsimp only at hc
    split at hc
    · exact Option.noConfusion hc
    · split at hc
      · exact Option.noConfusion hc
      · split at hc
        · exact Option.noConfusion hc
        · injection hc with hc
          subst hc
          exact ⟨rfl, rfl, rfl⟩
  obtain ⟨hd, hm2, hcnt⟩ := hdm
  have hlk : lookupDate (buildDateMap avs) entry.1 = some entry.2 :=
    lookupDate_of_mem (keys_buildDateMap_nodup avs) hmem
  rw [lookupDate_buildDateMap] at hlk
  by_cases hemp : (avs.filter fun a => a.date = entry.1) = []
  · rw [if_pos hemp] at hlk
    exact Option.noConfusion hlk
  · rw [if_neg hemp] at hlk
    injection hlk with hlk
    have hmm : cand.members =
        (avs.filter fun a => a.date = cand.date).map Availability.userId := by
      rw [hm2, hd, ← hlk]
    have hfn : (avs.filter fun a => a.date = cand.date).Nodup :=
      List.Nodup.filter _ hnd
    have hmapnd : ((avs.filter fun a => a.date = cand.date).map
        Availability.userId).Nodup := by
      apply List.Nodup.map_on ?_ hfn
      intro x hx y hy hxy
      have hx2 : x.date = cand.date := by
        have := (List.mem_filter.1 hx).2
        simpa using this
      have hy2 : y.date = cand.date := by
        have := (List.mem_filter.1 hy).2
        simpa using this
      cases x
      cases y
      simp_all
    refine ⟨hmm, by rw [hmm]; exact hmapnd, ?_⟩
    have hlen : cand.count =
        ((avs.filter fun a => a.date = cand.date).map
          Availability.userId).length := by
      rw [hcnt, hd, ← hlk]
    rw [List.dedup_eq_self.2 hmapnd]
    exact hlen

/-- Witness for `findOptimalDates_groupBy_distinct` on a duplicate-free
input: the 2024-06-01 candidate has members exactly `[A, B]`. -/
theorem findOptimalDates_groupBy_distinct_witness :
    (⟨⟨2024, 6, 1⟩, 2, ["A", "B"],
        [tagFullAttendance, tagHighTurnout, tagWeekend]⟩ :
      ScheduleCandidate).members =
      (([⟨⟨2024, 6, 1⟩, "A"⟩, ⟨⟨2024, 6, 1⟩, "B"⟩] :
        List Availability).filter fun a => a.date = ⟨2024, 6, 1⟩).map
        Availability.userId ∧
    (⟨⟨2024, 6, 1⟩, 2, ["A", "B"],
        [tagFullAttendance, tagHighTurnout, tagWeekend]⟩ :
      ScheduleCandidate).members.Nodup ∧
    (⟨⟨2024, 6, 1⟩, 2, ["A", "B"],
        [tagFullAttendance, tagHighTurnout, tagWeekend]⟩ :
      ScheduleCandidate).count =
      ((([⟨⟨2024, 6, 1⟩, "A"⟩, ⟨⟨2024, 6, 1⟩, "B"⟩] :
        List Availability).filter fun a => a.date = ⟨2024, 6, 1⟩).map
        Availability.userId).dedup.length :=
  findOptimalDates_groupBy_distinct
    [⟨⟨2024, 6, 1⟩, "A"⟩, ⟨⟨2024, 6, 1⟩, "B"⟩] [] 1 none 3
    ⟨⟨2024, 6, 1⟩, 2, ["A", "B"], [tagFullAttendance, tagHighTurnout, tagWeekend]⟩
    (by decide) (by decide)

end Optimix
